import Mathlib

/-!
Verification of the 9animetv scraper (`scrape.py`): a shallow embedding of
its field-extraction, URL-joining, deduplication, slug and persistence
logic, with theorems about the spec's claims.

Strings are modelled as `List Char` (Python `str` over code points).
-/

namespace Scrape

/-- Python strings modelled as lists of characters. -/
abbrev Str := List Char

/-- Coerce a Lean string literal to the model type. -/
def toL (s : String) : Str := s.toList

/-- Python `str.lower()`, character-wise (ASCII, as in the data scraped). -/
def lower (s : Str) : Str := s.map Char.toLower

/-- `startsWithL pat s` is true when `pat` is an initial run of `s`. -/
def startsWithL : Str → Str → Bool
  | [], _ => true
  | _ :: _, [] => false
  | p :: ps, c :: cs => p == c && startsWithL ps cs

/-- Python's `pat in s` substring test. -/
def substrOf (pat : Str) : Str → Bool
  | [] => startsWithL pat []
  | c :: rest => startsWithL pat (c :: rest) || substrOf pat rest

/-- Split at the first occurrence of `d`: Python `s.split(d, 1)` when `d` occurs. -/
def splitFirst (d : Char) : Str → Option (Str × Str)
  | [] => none
  | c :: rest =>
    if c = d then some ([], rest)
    else
      match splitFirst d rest with
      | none => none
      | some (a, b) => some (c :: a, b)

/-- Python `s.split(d)` on a single-character separator. -/
def splitOnC (d : Char) : Str → List Str
  | [] => [[]]
  | c :: rest =>
    match splitOnC d rest with
    | [] => [[c]]
    | h :: t => if c = d then [] :: h :: t else (c :: h) :: t

/-- Python `d.join(parts)` for a single-character joiner. -/
def intercalC (d : Char) : List Str → Str
  | [] => []
  | [x] => x
  | x :: rest => x ++ d :: intercalC d rest

/-- Python `' '.join(parts)`. -/
def joinSpace (l : List Str) : Str := intercalC ' ' l

/-- Characters removed from URLs by `urllib.parse` before parsing
(`_UNSAFE_URL_BYTES_TO_REMOVE`). -/
def unsafeUrlChar (c : Char) : Bool := c = '\t' || c = '\r' || c = '\n'

/-- Remove tab, CR and LF, as `urlsplit`/`urlparse` do before splitting. -/
def stripU (s : Str) : Str := s.filter (fun c => !unsafeUrlChar c)

/-- A string free of the characters `urlsplit` strips. -/
def cleanStr (s : Str) : Bool := s.all (fun c => !unsafeUrlChar c)

/-- Python whitespace for `str.strip()`. -/
def isWsChar (c : Char) : Bool :=
  c = ' ' || c = '\t' || c = '\n' || c = '\r' || c = '\x0b' || c = '\x0c'

/-- Python `str.strip()`. -/
def stripWs (s : Str) : Str :=
  ((s.dropWhile isWsChar).reverse.dropWhile isWsChar).reverse

/-! ## URL parsing and joining (`urllib.parse`)

`urlsplit`, `urlunsplit` and `urljoin` translated from CPython's
`urllib/parse.py`, specialised where the source fixes the base URL to
`https://9animetv.to` (which has scheme `https`, host `9animetv.to`, and
empty path, query and fragment). -/

/-- Characters allowed in a URL scheme after the first (`scheme_chars`). -/
def schemeChar (c : Char) : Bool := c.isAlpha || c.isDigit || c = '+' || c = '-' || c = '.'

/-- A character ending the network-location part (`_splitnetloc`). -/
def delimChar (c : Char) : Bool := c = '/' || c = '?' || c = '#'

/-- Take characters until the first of `/?#` (exclusive). -/
def takeUntilDelims : Str → Str
  | [] => []
  | c :: rest => if delimChar c then [] else c :: takeUntilDelims rest

/-- Drop characters until the first of `/?#` (kept). -/
def dropUntilDelims : Str → Str
  | [] => []
  | c :: rest => if delimChar c then c :: rest else dropUntilDelims rest

/-- The five components returned by `urlsplit`. -/
structure SplitRes where
  scheme : Str
  netloc : Str
  path : Str
  query : Str
  fragment : Str
deriving DecidableEq, Repr

/-- `urlsplit` on an already-stripped URL, with a default scheme `dflt`
(as `urlparse(url, bscheme)` passes one inside `urljoin`). -/
def urlsplitRaw (url : Str) (dflt : Str) : SplitRes :=
  let sp :=
    match splitFirst ':' url with
    | none => (dflt, url)
    | some (a, b) =>
      if a ≠ [] ∧ (a.headD ' ').isAlpha = true ∧ a.all schemeChar = true then (lower a, b)
      else (dflt, url)
  let scheme := sp.1
  let rest := sp.2
  let np :=
    if startsWithL (toL "//") rest then
      (takeUntilDelims (rest.drop 2), dropUntilDelims (rest.drop 2))
    else ([], rest)
  let netloc := np.1
  let fp :=
    match splitFirst '#' np.2 with
    | none => (np.2, [])
    | some (a, b) => (a, b)
  let fragment := fp.2
  let pq :=
    match splitFirst '?' fp.1 with
    | none => (fp.1, [])
    | some (a, b) => (a, b)
  ⟨scheme, netloc, pq.1, pq.2, fragment⟩

/-- `urlsplit(url, dflt)`: strip unsafe bytes, then split. -/
def urlsplitD (url : Str) (dflt : Str) : SplitRes := urlsplitRaw (stripU url) dflt

/-- `urlunsplit` on five components. -/
def urlunsplitB (s : SplitRes) : Str :=
  let u := s.path
  let u :=
    if s.netloc ≠ [] ∨ startsWithL (toL "//") u = true then
      toL "//" ++ s.netloc ++ (if u ≠ [] ∧ ¬ startsWithL (toL "/") u = true then '/' :: u else u)
    else u
  let u := if s.scheme ≠ [] then s.scheme ++ ':' :: u else u
  let u := if s.query ≠ [] then u ++ '?' :: s.query else u
  if s.fragment ≠ [] then u ++ '#' :: s.fragment else u

/-- The path adjustment `urlunsplit` makes when a netloc is present:
a non-empty path must begin with `/`. -/
def fixPath (P : Str) : Str :=
  if P ≠ [] ∧ ¬ startsWithL (toL "/") P = true then '/' :: P else P

/-- `urlunsplit`'s optional `?query` / `#fragment` suffix. -/
def optPre (c : Char) (s : Str) : Str := if s = [] then [] else c :: s

/-- Keep the first and last entries, dropping empty interior entries:
`segments[1:-1] = filter(None, segments[1:-1])` applied to the tail. -/
def midAux : List Str → List Str
  | [] => []
  | [x] => [x]
  | x :: rest => if x = [] then midAux rest else x :: midAux rest

/-- `segments[1:-1] = filter(None, segments[1:-1])`. -/
def midFilter : List Str → List Str
  | [] => []
  | x :: rest => x :: midAux rest

/-- Resolve `.` and `..` segments (the loop over `segments` in `urljoin`);
`acc` holds the resolved segments in reverse. -/
def resolveSegs (acc : List Str) : List Str → List Str
  | [] => acc.reverse
  | s :: rest =>
    if s = toL ".." then resolveSegs acc.tail rest
    else if s = toL "." then resolveSegs acc rest
    else resolveSegs (s :: acc) rest

/-- Join the resolved segments: trailing `''` after a final dot segment,
then `'/'.join(resolved_path) or '/'`. -/
def joinResolve (segs : List Str) : Str :=
  let r := resolveSegs [] segs
  let r := if segs.getLastD [] = toL "." ∨ segs.getLastD [] = toL ".." then r ++ [[]] else r
  let j := intercalC '/' r
  if j = [] then toL "/" else j

/-- The scraper's fixed base URL `https://9animetv.to`. -/
def baseStr : Str := toL "https://9animetv.to"

/-- `urljoin(self.base_url, url)` with the base fixed to
`https://9animetv.to`: scheme `https`, netloc `9animetv.to`, empty path,
query and fragment. -/
def urljoinB (url : Str) : Str :=
  if url = [] then baseStr
  else
    let s := urlsplitD url (toL "https")
    if s.scheme ≠ toL "https" then url
    else if s.netloc ≠ [] then urlunsplitB s
    else
      let netloc := toL "9animetv.to"
      if s.path = [] then
        urlunsplitB ⟨s.scheme, netloc, [], s.query, s.fragment⟩
      else
        let segs :=
          if startsWithL (toL "/") s.path then splitOnC '/' s.path
          else midFilter ([] :: splitOnC '/' s.path)
        urlunsplitB ⟨s.scheme, netloc, joinResolve segs, s.query, s.fragment⟩

/-- The last `'/'`-separated piece of a string: `s.split('/')[-1]`. -/
def lastSegOf (s : Str) : Str := (splitOnC '/' s).getLastD []

/-! ## The element model

`extract_anime_info` interrogates one markup element through a fixed set
of BeautifulSoup queries.  The element is modelled by the results those
queries return; HTML parsing itself is external to the program. -/

/-- The anchor chosen by the link-selection cascade. -/
structure Anchor where
  href : Option Str := none
  dataJName : Option Str := none
deriving DecidableEq, Repr

/-- The image tag found in the element, its parent or grandparent. -/
structure ImgElem where
  src : Option Str := none
  alt : Option Str := none
deriving DecidableEq, Repr

/-- One tag returned by the secondary-metadata `find_all`: its stripped
text and its `class` attribute list. -/
structure InfoElem where
  text : Str := []
  classes : List Str := []
deriving DecidableEq, Repr

/-- One candidate markup element, as seen by `extract_anime_info`'s queries:
the stripped text of the title element found by the title cascade, the
anchor found by the link cascade, the image found by the image search, the
secondary-metadata tags, the stripped text of the rating element, the
stripped texts of the genre elements, and the stripped text of the
description element. -/
structure ElementM where
  titleText : Option Str := none
  linkAnchor : Option Anchor := none
  imgElem : Option ImgElem := none
  infoElems : List InfoElem := []
  ratingText : Option Str := none
  genreTexts : List Str := []
  descText : Option Str := none
deriving DecidableEq, Repr

/-- The record built by `extract_anime_info` (plus the tags a Section
Scraper stamps afterwards); every field is optional.  `typ` is the
source's `type` key. -/
structure AnimeInfo where
  title : Option Str := none
  url : Option Str := none
  id : Option Str := none
  japanese_name : Option Str := none
  image_url : Option Str := none
  alt_text : Option Str := none
  episodes : Option Str := none
  status : Option Str := none
  year : Option Str := none
  typ : Option Str := none
  rating : Option Str := none
  genres : Option (List Str) := none
  description : Option Str := none
  category : Option Str := none
  genre : Option Str := none
  page : Option Nat := none
deriving DecidableEq, Repr

/-- The navigation stoplist in the title filter. -/
def stopWords : List Str :=
  [toL "updated", toL "added", toL "ongoing", toL "upcoming", toL "home"]

/-- `any('ep' in cls.lower() for cls in class_list) or 'Ep' in text`. -/
def epCondB (e : InfoElem) : Bool :=
  e.classes.any (fun c => substrOf (toL "ep") (lower c)) || substrOf (toL "Ep") e.text

/-- `'status' in ' '.join(class_list).lower()`. -/
def statusCondB (e : InfoElem) : Bool := substrOf (toL "status") (lower (joinSpace e.classes))

/-- `re.match(r'\d\x7b4\x7d', text)`: the text begins with four digits. -/
def yearCondB (e : InfoElem) : Bool :=
  match e.text with
  | a :: b :: c :: d :: _ => a.isDigit && b.isDigit && c.isDigit && d.isDigit
  | _ => false

/-- `'type' in ' '.join(class_list).lower()`. -/
def typeCondB (e : InfoElem) : Bool := substrOf (toL "type") (lower (joinSpace e.classes))

/-- The four secondary-metadata fields. -/
inductive MetaField
  | episodesF
  | statusF
  | yearF
  | typeF
deriving DecidableEq, Repr

/-- The `if/elif` classification chain of the secondary-metadata loop,
returning which field the element's text is assigned to, if any. -/
def classifyElem (e : InfoElem) : Option MetaField :=
  if epCondB e then some .episodesF
  else if statusCondB e then some .statusF
  else if yearCondB e then some .yearF
  else if typeCondB e then some .typeF
  else none

/-- One iteration of the secondary-metadata loop: assign the element's
text to the field its branch selects. -/
def applyInfoElem (info : AnimeInfo) (e : InfoElem) : AnimeInfo :=
  match classifyElem e with
  | some .episodesF => { info with episodes := some e.text }
  | some .statusF => { info with status := some e.text }
  | some .yearF => { info with year := some e.text }
  | some .typeF => { info with typ := some e.text }
  | none => info

/-- `extract_anime_info(anime_element)`. -/
def extractAnimeInfo (el : ElementM) : AnimeInfo :=
  let titleR : Option Str :=
    match el.titleText with
    | none => none
    | some t =>
      if 3 < t.length ∧ lower t ∉ stopWords then some t else none
  let linkR : Option Str × Option Str × Option Str :=
    match el.linkAnchor with
    | none => (none, none, none)
    | some a =>
      match a.href with
      | none => (none, none, none)
      | some href =>
        if href ≠ [] ∧ substrOf (toL "/watch/") href = true then
          (some (urljoinB href), some (lastSegOf href),
            match a.dataJName with
            | some j => if j ≠ [] then some j else none
            | none => none)
        else (none, none, none)
  let imgR : Option Str × Option Str :=
    match el.imgElem with
    | none => (none, none)
    | some im => (some (urljoinB (im.src.getD [])), some (im.alt.getD []))
  let info0 : AnimeInfo :=
    { title := titleR, url := linkR.1, id := linkR.2.1, japanese_name := linkR.2.2,
      image_url := imgR.1, alt_text := imgR.2 }
  let info1 := el.infoElems.foldl applyInfoElem info0
  let genresR : Option (List Str) :=
    if el.genreTexts ≠ [] then
      some ((el.genreTexts.flatMap (fun t =>
        if t ≠ [] ∧ substrOf [','] t = true then (splitOnC ',' t).map stripWs
        else [t])).filter (fun g => g ≠ []))
    else none
  { info1 with
    rating := el.ratingText
    genres := genresR
    description := el.descText }

/-! ## Deduplication -/

/-- The lowercased title key: `anime.get('title', '').lower()`. -/
def keyT (a : AnimeInfo) : Str := lower (a.title.getD [])

/-- The url key: `anime.get('url', '')`. -/
def keyU (a : AnimeInfo) : Str := a.url.getD []

/-- The dedup loop of `scrape_all`, carrying `seen_titles` and `seen_urls`. -/
def removeDuplicatesAll : List AnimeInfo → List Str → List Str → List AnimeInfo
  | [], _, _ => []
  | a :: rest, seenT, seenU =>
    if keyT a ∉ seenT ∧ keyU a ∉ seenU ∧ keyT a ≠ [] ∧ keyU a ≠ [] ∧ 3 < (keyT a).length then
      a :: removeDuplicatesAll rest (keyT a :: seenT) (keyU a :: seenU)
    else removeDuplicatesAll rest seenT seenU

/-- The dedup loop of `scrape_recently_added_multiple_pages`, which has no
title-length condition. -/
def removeDuplicatesMulti : List AnimeInfo → List Str → List Str → List AnimeInfo
  | [], _, _ => []
  | a :: rest, seenT, seenU =>
    if keyT a ∉ seenT ∧ keyU a ∉ seenU ∧ keyT a ≠ [] ∧ keyU a ≠ [] then
      a :: removeDuplicatesMulti rest (keyT a :: seenT) (keyU a :: seenU)
    else removeDuplicatesMulti rest seenT seenU

/-- Modelled from the spec's words for the dedup rule, with the seen-sets
replaced by the titles and urls of the earlier *kept* records, keeping
title and url independently: keep a record only if its lowercased title is
not among the earlier kept records' lowercased titles and its url is not
among their urls, and both are non-empty and the title is longer than 3. -/
def dedupSepByKept : List AnimeInfo → List AnimeInfo → List AnimeInfo
  | _, [] => []
  | kept, a :: rest =>
    if lower (a.title.getD []) ∉ kept.map keyT ∧ a.url.getD [] ∉ kept.map keyU ∧
        a.title.getD [] ≠ [] ∧ a.url.getD [] ≠ [] ∧ 3 < (a.title.getD []).length then
      a :: dedupSepByKept (kept ++ [a]) rest
    else dedupSepByKept kept rest

/-- Modelled from the spec's words (§4.4): keep a record only if its
(lowercased title, url) *pair* has not been seen among earlier kept
records and both title and url are non-empty and the title is longer
than 3; first occurrence wins. -/
def dedupPairByKept : List AnimeInfo → List AnimeInfo → List AnimeInfo
  | _, [] => []
  | kept, a :: rest =>
    if (lower (a.title.getD []), a.url.getD []) ∉ kept.map (fun r => (keyT r, keyU r)) ∧
        a.title.getD [] ≠ [] ∧ a.url.getD [] ≠ [] ∧ 3 < (a.title.getD []).length then
      a :: dedupPairByKept (kept ++ [a]) rest
    else dedupPairByKept kept rest

/-! ## Genre slug -/

/-- Python `s.replace(old, new)` for a one-character `old`. -/
def pyReplaceChar (old : Char) (new : Str) (s : Str) : Str :=
  s.flatMap (fun c => if c = old then new else [c])

/-- The genre path segment of `scrape_by_genre`:
`genre.lower().replace(' ', '-').replace('&', 'and')`. -/
def genreUrlSeg (genre : Str) : Str :=
  pyReplaceChar '&' (toL "and") (pyReplaceChar ' ' (toL "-") (lower genre))

/-- One-pass description of the slug: spaces become hyphens, `&` becomes
`and`, everything else is lowercased. -/
def slugStep (c : Char) : Str :=
  if c = ' ' then toL "-" else if c = '&' then toL "and" else [c.toLower]

/-! ## Persistence

Records are serialised as dictionaries; for persistence they are modelled
as association lists from key to value. -/

/-- A record as a dictionary (key/value pairs), as persisted. -/
abbrev PyDict := List (Str × Str)

/-- The contents of the CSV file: the header row and the records. -/
structure CsvDoc where
  header : List Str
  rows : List PyDict
deriving DecidableEq, Repr

/-- Lexicographic (code-point) order on strings, as Python `sorted` uses. -/
def strLt : Str → Str → Bool
  | [], [] => false
  | [], _ :: _ => true
  | _ :: _, [] => false
  | a :: as', b :: bs => if a = b then strLt as' bs else decide (a < b)

/-- Insert into a sorted list. -/
def insSorted (x : Str) : List Str → List Str
  | [] => [x]
  | y :: rest => if strLt x y then x :: y :: rest else y :: insSorted x rest

/-- Insertion sort by `strLt`: Python `sorted(all_keys)`. -/
def sortStrs : List Str → List Str
  | [] => []
  | x :: rest => insSorted x (sortStrs rest)

/-- Add a key to the accumulated key set (first occurrence kept). -/
def addKey (acc : List Str) (k : Str) : List Str := if k ∈ acc then acc else acc ++ [k]

/-- `all_keys.update(anime.keys())` over all records. -/
def unionKeys (rows : List PyDict) : List Str :=
  rows.foldl (fun acc r => r.foldl (fun a kv => addKey a kv.1) acc) []

/-- `save_to_csv`: on an empty record list it returns before opening the
file, so the previous contents survive; otherwise it writes the header
(the sorted union of keys) and one row per record. -/
def saveToCsv (scraped : List PyDict) (prev : Option CsvDoc) : Option CsvDoc :=
  if scraped = [] then prev
  else some ⟨sortStrs (unionKeys scraped), scraped⟩

/-- `save_to_json`: unconditionally writes the record list as a JSON array. -/
def saveToJson (scraped : List PyDict) (_prev : Option (List PyDict)) : Option (List PyDict) :=
  some scraped

/-! ## Inputs used by counterexamples and witnesses -/

/-- Two records with distinct urls whose titles collide case-insensitively. -/
def recA : AnimeInfo := { title := some (toL "Abcd"), url := some (toL "u111") }

/-- Same lowercased title as `recA`, different url and secondary field. -/
def recB : AnimeInfo :=
  { title := some (toL "abcd"), url := some (toL "u222"), episodes := some (toL "12") }

/-- A record whose title is non-empty but no longer than 3 characters. -/
def recShort : AnimeInfo := { title := some (toL "abc"), url := some (toL "u333") }

/-- An element whose anchor points at a different host. -/
def elemAbsHref : ElementM :=
  { titleText := some (toL "Naruto"),
    linkAnchor := some { href := some (toL "http://evil.com/watch/x") } }

/-- An element with a relative watch link. -/
def elemRelHref : ElementM :=
  { titleText := some (toL "Naruto"),
    linkAnchor := some { href := some (toL "/watch/naruto-677") } }

/-- An element whose watch link carries a query string. -/
def elemQueryHref : ElementM :=
  { titleText := some (toL "Naruto"),
    linkAnchor := some { href := some (toL "/watch/abc?p=2") } }

/-- An element whose watch link ends in a slash. -/
def elemSlashHref : ElementM :=
  { titleText := some (toL "One Piece"),
    linkAnchor := some { href := some (toL "/watch/one-piece-100/") } }

/-- A metadata tag matching both the episodes condition and the type
condition. -/
def elemTypeEp : InfoElem := { text := toL "Special", classes := [toL "type-ep"] }

/-- Modelled from the spec's words for the open question in §9: the same
chain read with the *last* matching branch winning. -/
def classifyLastWins (e : InfoElem) : Option MetaField :=
  if typeCondB e then some .typeF
  else if yearCondB e then some .yearF
  else if statusCondB e then some .statusF
  else if epCondB e then some .episodesF
  else none

/-- An element with an acceptable title and nothing else. -/
def elemPlainTitle : ElementM := { titleText := some (toL "Naruto") }

/-! ## Basic lemmas -/

theorem ofNatAux_toNat (n : Nat) (h : n.isValidChar) : (Char.ofNatAux n h).toNat = n := by
  simp [Char.ofNatAux, Char.toNat, UInt32.toNat]

theorem toLower_shape (c : Char) :
    Char.toLower c = c ∨ (97 ≤ (Char.toLower c).toNat ∧ (Char.toLower c).toNat ≤ 122) := by
  unfold Char.toLower
  simp only []
  by_cases hc : c.toNat ≥ 65 ∧ c.toNat ≤ 90
  · rw [if_pos hc]
    refine Or.inr ?_
    unfold Char.ofNat
    rw [dif_pos (Or.inl (by omega))]
    rw [ofNatAux_toNat]
    omega
  · rw [if_neg hc]
    exact Or.inl rfl

theorem toLower_ne_of_small (c d : Char) (hd : d.toNat < 97) (hcd : c ≠ d) :
    Char.toLower c ≠ d := by
  rcases toLower_shape c with h | h
  · rw [h]; exact hcd
  · intro he
    rw [he] at h
    omega

theorem lower_length (s : Str) : (lower s).length = s.length := List.length_map _ _

theorem lower_eq_nil (s : Str) : lower s = [] ↔ s = [] := by
  cases s <;> simp [lower]

theorem applyInfoElem_title (i : AnimeInfo) (e : InfoElem) :
    (applyInfoElem i e).title = i.title := by
  unfold applyInfoElem
  rcases classifyElem e with _ | f
  · rfl
  · cases f <;> rfl

theorem applyInfoElem_url (i : AnimeInfo) (e : InfoElem) :
    (applyInfoElem i e).url = i.url := by
  unfold applyInfoElem
  rcases classifyElem e with _ | f
  · rfl
  · cases f <;> rfl

theorem applyInfoElem_id (i : AnimeInfo) (e : InfoElem) :
    (applyInfoElem i e).id = i.id := by
  unfold applyInfoElem
  rcases classifyElem e with _ | f
  · rfl
  · cases f <;> rfl

theorem foldl_applyInfoElem_title (l : List InfoElem) (i : AnimeInfo) :
    (l.foldl applyInfoElem i).title = i.title := by
  induction l generalizing i with
  | nil => rfl
  | cons e rest ih => rw [List.foldl_cons, ih, applyInfoElem_title]

theorem foldl_applyInfoElem_url (l : List InfoElem) (i : AnimeInfo) :
    (l.foldl applyInfoElem i).url = i.url := by
  induction l generalizing i with
  | nil => rfl
  | cons e rest ih => rw [List.foldl_cons, ih, applyInfoElem_url]

theorem foldl_applyInfoElem_id (l : List InfoElem) (i : AnimeInfo) :
    (l.foldl applyInfoElem i).id = i.id := by
  induction l generalizing i with
  | nil => rfl
  | cons e rest ih => rw [List.foldl_cons, ih, applyInfoElem_id]

theorem extract_title_eq (el : ElementM) :
    (extractAnimeInfo el).title =
      match el.titleText with
      | none => none
      | some t => if 3 < t.length ∧ lower t ∉ stopWords then some t else none := by
  unfold extractAnimeInfo
  simp only [foldl_applyInfoElem_title]

theorem extract_link_eq (el : ElementM) (a : Anchor) (href : Str)
    (ha : el.linkAnchor = some a) (hh : a.href = some href) (hne : href ≠ [])
    (hw : substrOf (toL "/watch/") href = true) :
    (extractAnimeInfo el).url = some (urljoinB href) ∧
      (extractAnimeInfo el).id = some (lastSegOf href) := by
  unfold extractAnimeInfo
  simp only [foldl_applyInfoElem_url, foldl_applyInfoElem_id, ha, hh]
  rw [if_pos ⟨hne, hw⟩]
  exact ⟨rfl, rfl⟩

/-! ## C8: the title filter -/

/-- C8: whenever `extract_anime_info` sets a title, that title is longer
than 3 characters and is not case-insensitively equal to any stoplist word
(updated, added, ongoing, upcoming, home). -/
theorem c8_title_filter (el : ElementM) (t : Str)
    (h : (extractAnimeInfo el).title = some t) :
    3 < t.length ∧ ∀ w ∈ stopWords, lower t ≠ w := by
  rw [extract_title_eq] at h
  split at h
  · cases h
  · split at h
    · next t0 hc =>
      injection h with h
      subst h
      exact ⟨hc.1, fun w hw he => hc.2 (he ▸ hw)⟩
    · cases h

/-- Witness for C8 at a concrete element whose title is accepted. -/
theorem c8_title_filter_witness :
    (extractAnimeInfo elemPlainTitle).title = some (toL "Naruto") ∧
      (3 < (toL "Naruto").length ∧ ∀ w ∈ stopWords, lower (toL "Naruto") ≠ w) :=
  ⟨by decide, c8_title_filter elemPlainTitle (toL "Naruto") (by decide)⟩

/-! ## C3: the secondary-metadata classification chain -/

/-- C3 counterexample: `elemTypeEp` satisfies both the episodes condition
and the type condition, and the chain assigns `episodes` — the *first*
matching branch — not `type`, the last matching branch. -/
theorem c3_counterexample :
    epCondB elemTypeEp = true ∧ typeCondB elemTypeEp = true ∧
      classifyElem elemTypeEp = some MetaField.episodesF ∧
      classifyLastWins elemTypeEp = some MetaField.typeF ∧
      classifyElem elemTypeEp ≠ classifyLastWins elemTypeEp := by decide

/-- C3 (amended): in the secondary-metadata chain the *first* matching
branch wins, in the order episodes, status, year, type. -/
theorem c3_first_matching_branch (e : InfoElem) :
    (classifyElem e = some MetaField.episodesF ↔ epCondB e = true) ∧
      (classifyElem e = some MetaField.statusF ↔
        epCondB e = false ∧ statusCondB e = true) ∧
      (classifyElem e = some MetaField.yearF ↔
        epCondB e = false ∧ statusCondB e = false ∧ yearCondB e = true) ∧
      (classifyElem e = some MetaField.typeF ↔
        epCondB e = false ∧ statusCondB e = false ∧ yearCondB e = false ∧
          typeCondB e = true) := by
  cases h1 : epCondB e <;> cases h2 : statusCondB e <;> cases h3 : yearCondB e <;>
    cases h4 : typeCondB e <;> simp [classifyElem, h1, h2, h3, h4]

/-! ## C7: the genre slug -/

theorem pyReplaceChar_cons (old : Char) (new : Str) (x : Char) (l : Str) :
    pyReplaceChar old new (x :: l) =
      (if x = old then new else [x]) ++ pyReplaceChar old new l := by
  simp [pyReplaceChar]

theorem pyReplaceChar_append (old : Char) (new : Str) (l1 l2 : Str) :
    pyReplaceChar old new (l1 ++ l2) =
      pyReplaceChar old new l1 ++ pyReplaceChar old new l2 := by
  simp [pyReplaceChar]

theorem genreUrlSeg_fused (g : Str) : genreUrlSeg g = g.flatMap slugStep := by
  induction g with
  | nil => rfl
  | cons c rest ih =>
    show pyReplaceChar '&' (toL "and") (pyReplaceChar ' ' (toL "-") (lower (c :: rest))) = _
    have hl : lower (c :: rest) = c.toLower :: lower rest := rfl
    rw [hl, pyReplaceChar_cons, pyReplaceChar_append, List.flatMap_cons]
    have hrest : pyReplaceChar '&' (toL "and") (pyReplaceChar ' ' (toL "-") (lower rest)) =
        rest.flatMap slugStep := ih
    rw [hrest]
    congr 1
    by_cases hsp : c = ' '
    · subst hsp; rfl
    · by_cases hamp : c = '&'
      · subst hamp; rfl
      · have h1 : c.toLower ≠ ' ' := toLower_ne_of_small c ' ' (by decide) hsp
        have h2 : c.toLower ≠ '&' := toLower_ne_of_small c '&' (by decide) hamp
        rw [if_neg h1, pyReplaceChar_cons, if_neg h2]
        simp [slugStep, hsp, hamp, pyReplaceChar]

/-- C7: the genre path segment is built by lowercasing, turning spaces
into hyphens and `&` into `and` (equivalently, the one-pass `slugStep`
per character); in particular `"Sci-Fi & Fantasy"` becomes
`"sci-fi-and-fantasy"`. -/
theorem c7_genre_slug :
    genreUrlSeg (toL "Sci-Fi & Fantasy") = toL "sci-fi-and-fantasy" ∧
      ∀ g : Str, genreUrlSeg g = g.flatMap slugStep :=
  ⟨by decide, genreUrlSeg_fused⟩

/-! ## C10: persistence on an empty record list -/

/-- C10: with no records, `save_to_csv` leaves any existing file contents
unchanged, while `save_to_json` still writes an empty array. -/
theorem c10_empty_persistence :
    (∀ prev : Option CsvDoc, saveToCsv [] prev = prev) ∧
      (∀ prev : Option (List PyDict), saveToJson [] prev = some []) :=
  ⟨fun _ => rfl, fun _ => rfl⟩

/-! ## C1, C5, C6, C9: deduplication -/

theorem dedupAll_eq_sep (l : List AnimeInfo) :
    ∀ (sT sU : List Str) (kept : List AnimeInfo),
      (∀ t, t ∈ sT ↔ t ∈ kept.map keyT) → (∀ u, u ∈ sU ↔ u ∈ kept.map keyU) →
      removeDuplicatesAll l sT sU = dedupSepByKept kept l := by
  induction l with
  | nil => intro sT sU kept _ _; rfl
  | cons a rest ih =>
    intro sT sU kept hT hU
    have hiff : (keyT a ∉ sT ∧ keyU a ∉ sU ∧ keyT a ≠ [] ∧ keyU a ≠ [] ∧
          3 < (keyT a).length) ↔
        (lower (a.title.getD []) ∉ kept.map keyT ∧ a.url.getD [] ∉ kept.map keyU ∧
          a.title.getD [] ≠ [] ∧ a.url.getD [] ≠ [] ∧ 3 < (a.title.getD []).length) := by
      refine and_congr (not_congr (hT _)) (and_congr (not_congr (hU _))
        (and_congr (not_congr (lower_eq_nil _)) (and_congr Iff.rfl ?_)))
      rw [show keyT a = lower (a.title.getD []) from rfl, lower_length]
    show (if _ then _ else _) = (if _ then _ else _)
    by_cases hc : keyT a ∉ sT ∧ keyU a ∉ sU ∧ keyT a ≠ [] ∧ keyU a ≠ [] ∧
        3 < (keyT a).length
    · rw [if_pos hc, if_pos (hiff.mp hc)]
      congr 1
      refine ih (keyT a :: sT) (keyU a :: sU) (kept ++ [a]) (fun t => ?_) (fun u => ?_)
      · simp only [List.mem_cons, List.map_append, List.mem_append, List.map_cons,
          List.map_nil, List.mem_singleton]
        rw [hT t]
        tauto
      · simp only [List.mem_cons, List.map_append, List.mem_append, List.map_cons,
          List.map_nil, List.mem_singleton]
        rw [hU u]
        tauto
    · rw [if_neg hc, if_neg (fun h => hc (hiff.mpr h))]
      exact ih sT sU kept hT hU

/-- C1 counterexample: on two records with the same lowercased title but
different urls (so their (title, url) pairs differ), the code's dedup
keeps only the first, while the pair rule of the claim keeps both. -/
theorem c1_counterexample :
    removeDuplicatesAll [recA, recB] [] [] = [recA] ∧
      dedupPairByKept [] [recA, recB] = [recA, recB] ∧
      removeDuplicatesAll [recA, recB] [] [] ≠ dedupPairByKept [] [recA, recB] := by
  decide

/-- C1 (amended): the dedup of `scrape_all` keeps a record if and only if
its lowercased title is not among earlier kept records' lowercased titles
*and* its url is not among their urls, and both are non-empty and the
title is longer than 3 characters; first occurrence wins. -/
theorem c1_dedup_separate_sets (l : List AnimeInfo) :
    removeDuplicatesAll l [] [] = dedupSepByKept [] l :=
  dedupAll_eq_sep l [] [] [] (by simp) (by simp)

theorem dedupAll_nodup_aux (l : List AnimeInfo) :
    ∀ sT sU,
      (∀ r ∈ removeDuplicatesAll l sT sU, keyT r ∉ sT ∧ keyU r ∉ sU) ∧
        ((removeDuplicatesAll l sT sU).map keyT).Nodup ∧
        ((removeDuplicatesAll l sT sU).map keyU).Nodup := by
  induction l with
  | nil => intro sT sU; exact ⟨fun r hr => absurd hr (by simp [removeDuplicatesAll]), by
      simp [removeDuplicatesAll], by simp [removeDuplicatesAll]⟩
  | cons a rest ih =>
    intro sT sU
    simp only [removeDuplicatesAll]
    by_cases hc : keyT a ∉ sT ∧ keyU a ∉ sU ∧ keyT a ≠ [] ∧ keyU a ≠ [] ∧
        3 < (keyT a).length
    · rw [if_pos hc]
      obtain ⟨ihMem, ihT, ihU⟩ := ih (keyT a :: sT) (keyU a :: sU)
      refine ⟨?_, ?_, ?_⟩
      · intro r hr
        rcases List.mem_cons.mp hr with rfl | hr'
        · exact ⟨hc.1, hc.2.1⟩
        · have := ihMem r hr'
          exact ⟨fun h => this.1 (List.mem_cons_of_mem _ h),
            fun h => this.2 (List.mem_cons_of_mem _ h)⟩
      · rw [List.map_cons]
        refine List.nodup_cons.mpr ⟨?_, ihT⟩
        intro hmem
        obtain ⟨r, hr, he⟩ := List.mem_map.mp hmem
        exact (ihMem r hr).1 (he ▸ List.mem_cons_self _ _)
      · rw [List.map_cons]
        refine List.nodup_cons.mpr ⟨?_, ihU⟩
        intro hmem
        obtain ⟨r, hr, he⟩ := List.mem_map.mp hmem
        exact (ihMem r hr).2 (he ▸ List.mem_cons_self _ _)
    · rw [if_neg hc]
      exact ih sT sU

/-- C9: the final list of `scrape_all` has pairwise-distinct lowercased
titles and, independently, pairwise-distinct urls — an invariant strictly
stronger than uniqueness of the (lowercased title, url) pair. -/
theorem c9_titles_and_urls_distinct (l : List AnimeInfo) :
    ((removeDuplicatesAll l [] []).map keyT).Nodup ∧
      ((removeDuplicatesAll l [] []).map keyU).Nodup :=
  (dedupAll_nodup_aux l [] []).2

theorem dedupAll_idem_aux (l : List AnimeInfo) :
    ∀ sT sU oT oU, (∀ x ∈ oT, x ∈ sT) → (∀ x ∈ oU, x ∈ sU) →
      removeDuplicatesAll (removeDuplicatesAll l sT sU) oT oU =
        removeDuplicatesAll l sT sU := by
  induction l with
  | nil => intro _ _ _ _ _ _; rfl
  | cons a rest ih =>
    intro sT sU oT oU hT hU
    simp only [removeDuplicatesAll]
    by_cases hc : keyT a ∉ sT ∧ keyU a ∉ sU ∧ keyT a ≠ [] ∧ keyU a ≠ [] ∧
        3 < (keyT a).length
    · rw [if_pos hc]
      have hco : keyT a ∉ oT ∧ keyU a ∉ oU ∧ keyT a ≠ [] ∧ keyU a ≠ [] ∧
          3 < (keyT a).length :=
        ⟨fun h => hc.1 (hT _ h), fun h => hc.2.1 (hU _ h), hc.2.2.1, hc.2.2.2.1,
          hc.2.2.2.2⟩
      simp only [removeDuplicatesAll]
      rw [if_pos hco]
      congr 1
      refine ih (keyT a :: sT) (keyU a :: sU) (keyT a :: oT) (keyU a :: oU) ?_ ?_
      · intro x hx
        rcases List.mem_cons.mp hx with rfl | hx'
        · exact List.mem_cons_self _ _
        · exact List.mem_cons_of_mem _ (hT x hx')
      · intro x hx
        rcases List.mem_cons.mp hx with rfl | hx'
        · exact List.mem_cons_self _ _
        · exact List.mem_cons_of_mem _ (hU x hx')
    · rw [if_neg hc]
      exact ih sT sU oT oU hT hU

/-- C6: the dedup merge of `scrape_all` is idempotent — run on its own
output it returns that output unchanged. -/
theorem c6_dedup_idempotent (l : List AnimeInfo) :
    removeDuplicatesAll (removeDuplicatesAll l [] []) [] [] =
      removeDuplicatesAll l [] [] :=
  dedupAll_idem_aux l [] [] [] [] (fun _ h => h) (fun _ h => h)

theorem dedupMulti_eq_all_aux (l : List AnimeInfo) :
    ∀ sT sU, (∀ r ∈ l, r.title.getD [] = [] ∨ 3 < (r.title.getD []).length) →
      removeDuplicatesMulti l sT sU = removeDuplicatesAll l sT sU := by
  induction l with
  | nil => intro _ _ _; rfl
  | cons a rest ih =>
    intro sT sU h
    have ha := h a (List.mem_cons_self _ _)
    have hrest : ∀ r ∈ rest, r.title.getD [] = [] ∨ 3 < (r.title.getD []).length :=
      fun r hr => h r (List.mem_cons_of_mem _ hr)
    show (if _ then _ else _) = (if _ then _ else _)
    rcases ha with hnil | hlong
    · have hkeyNil : keyT a = [] := (lower_eq_nil _).mpr hnil
      rw [if_neg (fun hcond => hcond.2.2.1 hkeyNil),
        if_neg (fun hcond => hcond.2.2.1 hkeyNil)]
      exact ih sT sU hrest
    · have hkeyLong : 3 < (keyT a).length := by
        rw [show keyT a = lower (a.title.getD []) from rfl, lower_length]
        exact hlong
      by_cases hm : keyT a ∉ sT ∧ keyU a ∉ sU ∧ keyT a ≠ [] ∧ keyU a ≠ []
      · rw [if_pos hm, if_pos ⟨hm.1, hm.2.1, hm.2.2.1, hm.2.2.2, hkeyLong⟩]
        congr 1
        exact ih (keyT a :: sT) (keyU a :: sU) hrest
      · rw [if_neg hm, if_neg (fun hcond => hm ⟨hcond.1, hcond.2.1, hcond.2.2.1,
          hcond.2.2.2.1⟩)]
        exact ih sT sU hrest

/-- C5 counterexample: on a record with a non-empty title of length 3 the
multi-page dedup keeps the record while the dedup of `scrape_all` drops
it, so the two steps are not the same rule on every input. -/
theorem c5_counterexample :
    removeDuplicatesMulti [recShort] [] [] = [recShort] ∧
      removeDuplicatesAll [recShort] [] [] = [] ∧
      removeDuplicatesMulti [recShort] [] [] ≠ removeDuplicatesAll [recShort] [] [] := by
  decide

/-- C5 (amended): the multi-page dedup is the `scrape_all` rule minus the
title-length condition; the two dedup steps agree on every input list in
which each record's title is empty or longer than 3 characters. -/
theorem c5_dedup_agree_on_long_titles (l : List AnimeInfo)
    (h : ∀ r ∈ l, r.title.getD [] = [] ∨ 3 < (r.title.getD []).length) :
    removeDuplicatesMulti l [] [] = removeDuplicatesAll l [] [] :=
  dedupMulti_eq_all_aux l [] [] h

/-- Witness for C5 (amended) at a concrete list satisfying the hypothesis. -/
theorem c5_dedup_agree_witness :
    (∀ r ∈ [recA, recB], r.title.getD [] = [] ∨ 3 < (r.title.getD []).length) ∧
      removeDuplicatesMulti [recA, recB] [] [] = removeDuplicatesAll [recA, recB] [] [] :=
  ⟨by decide, c5_dedup_agree_on_long_titles [recA, recB] (by decide)⟩

/-! ## C2, C4: urljoin and the shape of accepted urls -/

theorem cleanStr_append (a b : Str) : cleanStr (a ++ b) = (cleanStr a && cleanStr b) :=
  List.all_append

theorem cleanStr_cons (c : Char) (s : Str) :
    cleanStr (c :: s) = (!unsafeUrlChar c && cleanStr s) := rfl

theorem stripU_of_clean (s : Str) (h : cleanStr s = true) : stripU s = s :=
  List.filter_eq_self.mpr (fun c hc => List.all_eq_true.mp h c hc)

theorem splitFirst_none_of_not_mem (d : Char) (s : Str) (h : d ∉ s) :
    splitFirst d s = none := by
  induction s with
  | nil => rfl
  | cons c rest ih =>
    have hcd : c ≠ d := fun he => h (he ▸ List.mem_cons_self _ _)
    have hrest : d ∉ rest := fun hm => h (List.mem_cons_of_mem _ hm)
    simp only [splitFirst]
    rw [if_neg hcd, ih hrest]

theorem splitFirst_clean (d : Char) (s a b : Str) (hs : splitFirst d s = some (a, b))
    (h : cleanStr s = true) : cleanStr a = true ∧ cleanStr b = true := by
  induction s generalizing a with
  | nil => cases hs
  | cons c rest ih =>
    have hc : (!unsafeUrlChar c) = true ∧ cleanStr rest = true := by
      rw [cleanStr_cons] at h
      exact ⟨(Bool.and_eq_true _ _ ▸ h).1, (Bool.and_eq_true _ _ ▸ h).2⟩
    simp only [splitFirst] at hs
    by_cases he : c = d
    · rw [if_pos he] at hs
      injection hs with hs
      injection hs with h1 h2
      subst h1; subst h2
      exact ⟨rfl, hc.2⟩
    · rw [if_neg he] at hs
      cases hsp : splitFirst d rest with
      | none => rw [hsp] at hs; cases hs
      | some p =>
        rw [hsp] at hs
        obtain ⟨a', b'⟩ := p
        injection hs with hs
        injection hs with h1 h2
        subst h1; subst h2
        obtain ⟨ha', hb'⟩ := ih a' hsp hc.2
        exact ⟨by rw [cleanStr_cons, hc.1, ha']; rfl, hb'⟩

theorem splitFirst_colon_https (rest : Str) :
    splitFirst ':' (toL "https" ++ ':' :: rest) = some (toL "https", rest) := rfl

theorem startsWith_slashslash (x : Str) :
    startsWithL (toL "//") (toL "//" ++ x) = true := rfl

theorem drop_two_slashslash (x : Str) : (toL "//" ++ x).drop 2 = x := rfl

theorem takeUntil_host (t : Str) :
    takeUntilDelims (toL "9animetv.to" ++ t) = toL "9animetv.to" ++ takeUntilDelims t := rfl

theorem dropUntil_host (t : Str) :
    dropUntilDelims (toL "9animetv.to" ++ t) = dropUntilDelims t := rfl

theorem startsWith_slash (s : Str) (h : startsWithL (toL "/") s = true) :
    ∃ t, s = '/' :: t := by
  cases s with
  | nil => cases h
  | cons c rest =>
    refine ⟨rest, ?_⟩
    have hb : ('/' == c) = true := by
      have := h
      simp only [toL, startsWithL] at this
      exact (Bool.and_eq_true _ _ ▸ this).1
    rw [show c = '/' from (eq_of_beq hb).symm]

theorem takeUntil_fixPath_nil (P Q F : Str) :
    takeUntilDelims (fixPath P ++ (optPre '?' Q ++ optPre '#' F)) = [] := by
  by_cases hP : P = []
  · subst hP
    rw [show fixPath [] = [] from rfl]
    by_cases hQ : Q = []
    · subst hQ
      rw [show optPre '?' [] = [] from rfl]
      by_cases hF : F = []
      · subst hF; rfl
      · obtain ⟨f, fs, rfl⟩ : ∃ f fs, F = f :: fs := by
          cases F with
          | nil => exact absurd rfl hF
          | cons f fs => exact ⟨f, fs, rfl⟩
        rw [show optPre '#' (f :: fs) = '#' :: f :: fs from rfl]
        rfl
    · obtain ⟨q, qs, rfl⟩ : ∃ q qs, Q = q :: qs := by
        cases Q with
        | nil => exact absurd rfl hQ
        | cons q qs => exact ⟨q, qs, rfl⟩
      rw [show optPre '?' (q :: qs) = '?' :: q :: qs from rfl]
      rfl
  · have hfix : ∃ t, fixPath P = '/' :: t := by
      unfold fixPath
      by_cases hs : startsWithL (toL "/") P = true
      · rw [if_neg (fun hand => hand.2 hs)]
        exact startsWith_slash P hs
      · rw [if_pos ⟨hP, hs⟩]
        exact ⟨P, rfl⟩
    obtain ⟨t, ht⟩ := hfix
    rw [ht]
    rfl

theorem unsplit_canon (P Q F : Str) :
    urlunsplitB ⟨toL "https", toL "9animetv.to", P, Q, F⟩ =
      toL "https" ++ ':' ::
        (toL "//" ++ (toL "9animetv.to" ++ (fixPath P ++ (optPre '?' Q ++ optPre '#' F)))) := by
  unfold urlunsplitB fixPath optPre
  simp only []
  rw [if_pos (Or.inl (by decide)), if_pos (by decide : toL "https" ≠ [])]
  by_cases hQ : Q = [] <;> by_cases hF : F = [] <;>
    simp [hQ, hF, List.append_assoc]

theorem stripU_canon (T : Str) :
    stripU (toL "https" ++ ':' :: (toL "//" ++ (toL "9animetv.to" ++ T))) =
      toL "https" ++ ':' :: (toL "//" ++ (toL "9animetv.to" ++ stripU T)) := rfl

theorem urlsplitD_canon (T : Str) (hcl : cleanStr T = true)
    (hHead : takeUntilDelims T = []) :
    (urlsplitD (toL "https" ++ ':' :: (toL "//" ++ (toL "9animetv.to" ++ T))) []).scheme =
        toL "https" ∧
      (urlsplitD (toL "https" ++ ':' :: (toL "//" ++ (toL "9animetv.to" ++ T))) []).netloc =
        toL "9animetv.to" := by
  unfold urlsplitD
  rw [stripU_canon, stripU_of_clean T hcl]
  unfold urlsplitRaw
  rw [splitFirst_colon_https]
  simp only []
  rw [if_pos (by decide : toL "https" ≠ [] ∧ ((toL "https").headD ' ').isAlpha = true ∧
    (toL "https").all schemeChar = true)]
  rw [show lower (toL "https") = toL "https" from rfl]
  rw [if_pos (startsWith_slashslash _), drop_two_slashslash, takeUntil_host, hHead]
  exact ⟨rfl, by simp⟩

theorem splitOnC_clean (d : Char) (s : Str) (h : cleanStr s = true) :
    ∀ x ∈ splitOnC d s, cleanStr x = true := by
  induction s with
  | nil =>
    intro x hx
    simp only [splitOnC, List.mem_singleton] at hx
    subst hx; rfl
  | cons c rest ih =>
    intro x hx
    have hc : (!unsafeUrlChar c) = true ∧ cleanStr rest = true := by
      rw [cleanStr_cons] at h
      exact ⟨(Bool.and_eq_true _ _ ▸ h).1, (Bool.and_eq_true _ _ ▸ h).2⟩
    simp only [splitOnC] at hx
    cases hsp : splitOnC d rest with
    | nil =>
      rw [hsp] at hx
      simp only [List.mem_singleton] at hx
      subst hx
      rw [cleanStr_cons, hc.1]
      rfl
    | cons h0 t0 =>
      rw [hsp] at hx
      simp only [] at hx
      by_cases he : c = d
      · rw [if_pos he] at hx
        rcases List.mem_cons.mp hx with rfl | hx'
        · rfl
        · exact ih hc.2 x (hsp ▸ hx')
      · rw [if_neg he] at hx
        rcases List.mem_cons.mp hx with rfl | hx'
        · rw [cleanStr_cons, hc.1]
          have : h0 ∈ splitOnC d rest := hsp ▸ List.mem_cons_self _ _
          exact ih hc.2 h0 this
        · exact ih hc.2 x (hsp ▸ List.mem_cons_of_mem _ hx')

theorem mem_midAux (x : Str) (l : List Str) (h : x ∈ midAux l) : x ∈ l := by
  induction l with
  | nil => cases h
  | cons a rest ih =>
    cases rest with
    | nil => exact h
    | cons b t =>
      simp only [midAux] at h
      by_cases ha : a = []
      · rw [if_pos ha] at h
        exact List.mem_cons_of_mem _ (ih h)
      · rw [if_neg ha] at h
        rcases List.mem_cons.mp h with rfl | h'
        · exact List.mem_cons_self _ _
        · exact List.mem_cons_of_mem _ (ih h')

theorem resolveSegs_clean (l acc : List Str) (hacc : ∀ x ∈ acc, cleanStr x = true)
    (hl : ∀ x ∈ l, cleanStr x = true) : ∀ x ∈ resolveSegs acc l, cleanStr x = true := by
  induction l generalizing acc with
  | nil =>
    intro x hx
    exact hacc x (List.mem_reverse.mp hx)
  | cons s rest ih =>
    intro x hx
    have hs := hl s (List.mem_cons_self _ _)
    have hrest : ∀ y ∈ rest, cleanStr y = true := fun y hy => hl y (List.mem_cons_of_mem _ hy)
    simp only [resolveSegs] at hx
    by_cases h2 : s = toL ".."
    · rw [if_pos h2] at hx
      exact ih acc.tail (fun y hy => hacc y (List.mem_of_mem_tail hy)) hrest x hx
    · rw [if_neg h2] at hx
      by_cases h1 : s = toL "."
      · rw [if_pos h1] at hx
        exact ih acc hacc hrest x hx
      · rw [if_neg h1] at hx
        refine ih (s :: acc) (fun y hy => ?_) hrest x hx
        rcases List.mem_cons.mp hy with rfl | hy'
        · exact hs
        · exact hacc y hy'

theorem intercalC_clean (d : Char) (hd : (!unsafeUrlChar d) = true) (l : List Str)
    (h : ∀ x ∈ l, cleanStr x = true) : cleanStr (intercalC d l) = true := by
  induction l with
  | nil => rfl
  | cons x rest ih =>
    cases rest with
    | nil => exact h x (List.mem_cons_self _ _)
    | cons y t =>
      show cleanStr (x ++ d :: intercalC d (y :: t)) = true
      rw [cleanStr_append, cleanStr_cons, hd,
        ih (fun z hz => h z (List.mem_cons_of_mem _ hz)),
        h x (List.mem_cons_self _ _)]
      rfl

theorem joinResolve_clean (segs : List Str) (h : ∀ x ∈ segs, cleanStr x = true) :
    cleanStr (joinResolve segs) = true := by
  unfold joinResolve
  simp only []
  have hres : ∀ x ∈ resolveSegs [] segs, cleanStr x = true :=
    resolveSegs_clean segs [] (fun x hx => absurd hx (List.not_mem_nil x)) h
  by_cases hlast : segs.getLastD [] = toL "." ∨ segs.getLastD [] = toL ".."
  · rw [if_pos hlast]
    have hlist : ∀ x ∈ resolveSegs [] segs ++ [[]], cleanStr x = true := by
      intro x hx
      rcases List.mem_append.mp hx with hx' | hx'
      · exact hres x hx'
      · rw [List.mem_singleton.mp hx']; rfl
    split
    · rfl
    · exact intercalC_clean '/' rfl _ hlist
  · rw [if_neg hlast]
    split
    · rfl
    · exact intercalC_clean '/' rfl _ hres

theorem fixOpt_clean (P Q F : Str) (hP : cleanStr P = true) (hQ : cleanStr Q = true)
    (hF : cleanStr F = true) :
    cleanStr (fixPath P ++ (optPre '?' Q ++ optPre '#' F)) = true := by
  have h1 : cleanStr (fixPath P) = true := by
    unfold fixPath
    split
    · rw [cleanStr_cons, hP]; rfl
    · exact hP
  have h2 : cleanStr (optPre '?' Q) = true := by
    unfold optPre
    split
    · rfl
    · rw [cleanStr_cons, hQ]; rfl
  have h3 : cleanStr (optPre '#' F) = true := by
    unfold optPre
    split
    · rfl
    · rw [cleanStr_cons, hF]; rfl
  rw [cleanStr_append, h1, cleanStr_append, h2, h3]
  rfl

theorem urlsplitD_rel (href : Str) (hcl : cleanStr href = true)
    (hc : (':' : Char) ∉ href) (hss : startsWithL (toL "//") href = false) :
    ∃ P Q F, urlsplitD href (toL "https") = ⟨toL "https", [], P, Q, F⟩ ∧
      cleanStr P = true ∧ cleanStr Q = true ∧ cleanStr F = true := by
  unfold urlsplitD
  rw [stripU_of_clean href hcl]
  unfold urlsplitRaw
  rw [splitFirst_none_of_not_mem ':' href hc]
  simp only []
  rw [hss]
  simp only [Bool.false_eq_true, if_false]
  cases hfr : splitFirst '#' href with
  | none =>
    simp only []
    cases hq : splitFirst '?' href with
    | some p =>
      obtain ⟨a, b⟩ := p
      obtain ⟨ha, hb⟩ := splitFirst_clean '?' href a b hq hcl
      exact ⟨a, b, [], rfl, ha, hb, rfl⟩
    | none => exact ⟨href, [], [], rfl, hcl, rfl, rfl⟩
  | some p =>
    obtain ⟨a, b⟩ := p
    obtain ⟨ha, hb⟩ := splitFirst_clean '#' href a b hfr hcl
    simp only []
    cases hq : splitFirst '?' a with
    | some p2 =>
      obtain ⟨a2, b2⟩ := p2
      obtain ⟨ha2, hb2⟩ := splitFirst_clean '?' a a2 b2 hq ha
      exact ⟨a2, b2, b, rfl, ha2, hb2, hb⟩
    | none => exact ⟨a, [], b, rfl, ha, rfl, hb⟩

theorem urljoin_rel_scheme_host (href : Str) (h0 : href ≠ [])
    (hcl : cleanStr href = true) (hc : (':' : Char) ∉ href)
    (hss : startsWithL (toL "//") href = false) :
    (urlsplitD (urljoinB href) []).scheme = toL "https" ∧
      (urlsplitD (urljoinB href) []).netloc = toL "9animetv.to" := by
  obtain ⟨P, Q, F, hs, hP, hQ, hF⟩ := urlsplitD_rel href hcl hc hss
  unfold urljoinB
  rw [if_neg h0, hs]
  simp only []
  rw [if_neg (by simp), if_neg (by simp)]
  by_cases hPnil : P = []
  · rw [if_pos hPnil, unsplit_canon]
    exact urlsplitD_canon _ (fixOpt_clean [] Q F rfl hQ hF) (takeUntil_fixPath_nil [] Q F)
  · rw [if_neg hPnil]
    have hsegs : ∀ x ∈ (if startsWithL (toL "/") P = true then splitOnC '/' P
        else midFilter ([] :: splitOnC '/' P)), cleanStr x = true := by
      split
      · exact splitOnC_clean '/' P hP
      · intro x hx
        unfold midFilter at hx
        rcases List.mem_cons.mp hx with rfl | hxm
        · rfl
        · exact splitOnC_clean '/' P hP x (mem_midAux x _ hxm)
    rw [unsplit_canon]
    exact urlsplitD_canon _
      (fixOpt_clean _ Q F (joinResolve_clean _ hsegs) hQ hF)
      (takeUntil_fixPath_nil _ Q F)

/-- C2 counterexample: an accepted record whose anchor href is an absolute
URL on another host keeps that foreign scheme and host — `urljoin` does
not force the base origin. -/
theorem c2_counterexample :
    (extractAnimeInfo elemAbsHref).title = some (toL "Naruto") ∧
      (extractAnimeInfo elemAbsHref).url = some (toL "http://evil.com/watch/x") ∧
      (urlsplitD (toL "http://evil.com/watch/x") []).scheme ≠ toL "https" ∧
      (urlsplitD (toL "http://evil.com/watch/x") []).netloc ≠ toL "9animetv.to" := by
  decide

/-- C2 (amended): for every accepted href that is a relative reference —
free of tab/CR/LF, containing no `:` and not beginning with `//` — the
url recorded by `extract_anime_info` is an absolute URL with the base
origin's scheme `https` and host `9animetv.to`. -/
theorem c2_url_base_origin (el : ElementM) (a : Anchor) (href : Str)
    (ha : el.linkAnchor = some a) (hh : a.href = some href) (h0 : href ≠ [])
    (hw : substrOf (toL "/watch/") href = true) (hcl : cleanStr href = true)
    (hc : (':' : Char) ∉ href) (hss : startsWithL (toL "//") href = false) :
    ∃ u, (extractAnimeInfo el).url = some u ∧
      (urlsplitD u []).scheme = toL "https" ∧
      (urlsplitD u []).netloc = toL "9animetv.to" := by
  obtain ⟨hu, _⟩ := extract_link_eq el a href ha hh h0 hw
  exact ⟨urljoinB href, hu, urljoin_rel_scheme_host href h0 hcl hc hss⟩

/-- Witness for C2 (amended) at a concrete relative href. -/
theorem c2_url_base_origin_witness :
    ∃ u, (extractAnimeInfo elemRelHref).url = some u ∧
      (urlsplitD u []).scheme = toL "https" ∧
      (urlsplitD u []).netloc = toL "9animetv.to" :=
  c2_url_base_origin elemRelHref { href := some (toL "/watch/naruto-677") }
    (toL "/watch/naruto-677") rfl rfl (by decide) (by decide) (by decide) (by decide)
    (by decide)

/-! ### Split/join inverses for the path of a relative join (C4) -/

theorem splitOnC_ne_nil (d : Char) (s : Str) : splitOnC d s ≠ [] := by
  cases s with
  | nil => simp [splitOnC]
  | cons c rest =>
    simp only [splitOnC]
    cases hsp : splitOnC d rest with
    | nil => simp
    | cons h t =>
      simp only []
      split <;> simp

theorem splitOnC_cons_delim (d : Char) (t : Str) :
    splitOnC d (d :: t) = [] :: splitOnC d t := by
  simp only [splitOnC]
  cases hsp : splitOnC d t with
  | nil => exact absurd hsp (splitOnC_ne_nil d t)
  | cons h t' => simp

theorem splitOnC_no_delim (d : Char) (s : Str) (h : d ∉ s) : splitOnC d s = [s] := by
  induction s with
  | nil => rfl
  | cons c rest ih =>
    have hc : c ≠ d := fun he => h (he ▸ List.mem_cons_self _ _)
    have hrest : d ∉ rest := fun hm => h (List.mem_cons_of_mem _ hm)
    simp only [splitOnC]
    rw [ih hrest]
    simp only []
    rw [if_neg hc]

theorem splitOnC_append_delim (d : Char) (x r : Str) (hx : d ∉ x) :
    splitOnC d (x ++ d :: r) = x :: splitOnC d r := by
  induction x with
  | nil => exact splitOnC_cons_delim d r
  | cons c xs ih =>
    have hc : c ≠ d := fun he => hx (he ▸ List.mem_cons_self _ _)
    have hxs : d ∉ xs := fun hm => hx (List.mem_cons_of_mem _ hm)
    show splitOnC d (c :: (xs ++ d :: r)) = (c :: xs) :: splitOnC d r
    simp only [splitOnC]
    rw [ih hxs]
    simp only []
    rw [if_neg hc]

theorem intercal_split (d : Char) (s : Str) : intercalC d (splitOnC d s) = s := by
  induction s with
  | nil => rfl
  | cons c rest ih =>
    simp only [splitOnC]
    cases hsp : splitOnC d rest with
    | nil => exact absurd hsp (splitOnC_ne_nil d rest)
    | cons h t =>
      have ih' : intercalC d (h :: t) = rest := hsp ▸ ih
      simp only []
      by_cases he : c = d
      · rw [if_pos he]
        show [] ++ d :: intercalC d (h :: t) = c :: rest
        rw [List.nil_append, ih', he]
      · rw [if_neg he]
        cases t with
        | nil =>
          show c :: h = c :: rest
          rw [show h = rest from ih']
        | cons t1 ts =>
          show (c :: h) ++ d :: intercalC d (t1 :: ts) = c :: rest
          rw [List.cons_append, show h ++ d :: intercalC d (t1 :: ts) = rest from ih']

theorem mem_splitOnC_no_delim (d : Char) (s : Str) : ∀ x ∈ splitOnC d s, d ∉ x := by
  induction s with
  | nil =>
    intro x hx
    simp only [splitOnC, List.mem_singleton] at hx
    subst hx
    simp
  | cons c rest ih =>
    intro x hx
    simp only [splitOnC] at hx
    cases hsp : splitOnC d rest with
    | nil => exact absurd hsp (splitOnC_ne_nil d rest)
    | cons h t =>
      rw [hsp] at hx
      simp only [] at hx
      by_cases he : c = d
      · rw [if_pos he] at hx
        rcases List.mem_cons.mp hx with rfl | hx'
        · simp
        · exact ih x (hsp ▸ hx')
      · rw [if_neg he] at hx
        rcases List.mem_cons.mp hx with rfl | hx'
        · intro hmem
          rcases List.mem_cons.mp hmem with hdc | hmem'
          · exact he hdc.symm
          · exact ih h (hsp ▸ List.mem_cons_self _ _) hmem'
        · exact ih x (hsp ▸ List.mem_cons_of_mem _ hx')

theorem split_intercal (d : Char) (l : List Str) (hne : l ≠ [])
    (h : ∀ x ∈ l, d ∉ x) : splitOnC d (intercalC d l) = l := by
  induction l with
  | nil => exact absurd rfl hne
  | cons x rest ih =>
    cases rest with
    | nil => exact splitOnC_no_delim d x (h x (List.mem_cons_self _ _))
    | cons y t =>
      show splitOnC d (x ++ d :: intercalC d (y :: t)) = x :: y :: t
      have hrec : splitOnC d (intercalC d (y :: t)) = y :: t :=
        ih (by simp) (fun z hz => h z (List.mem_cons_of_mem _ hz))
      rw [splitOnC_append_delim d x _ (h x (List.mem_cons_self _ _)), hrec]

theorem splitOnC_chars (d : Char) (s : Str) :
    ∀ x ∈ splitOnC d s, ∀ c ∈ x, c ∈ s := by
  induction s with
  | nil =>
    intro x hx c hc
    simp only [splitOnC, List.mem_singleton] at hx
    subst hx
    cases hc
  | cons a rest ih =>
    intro x hx c hc
    simp only [splitOnC] at hx
    cases hsp : splitOnC d rest with
    | nil => exact absurd hsp (splitOnC_ne_nil d rest)
    | cons h t =>
      rw [hsp] at hx
      simp only [] at hx
      by_cases he : a = d
      · rw [if_pos he] at hx
        rcases List.mem_cons.mp hx with rfl | hx'
        · cases hc
        · exact List.mem_cons_of_mem _ (ih x (hsp ▸ hx') c hc)
      · rw [if_neg he] at hx
        rcases List.mem_cons.mp hx with rfl | hx'
        · rcases List.mem_cons.mp hc with rfl | hc'
          · exact List.mem_cons_self _ _
          · exact List.mem_cons_of_mem _ (ih h (hsp ▸ List.mem_cons_self _ _) c hc')
        · exact List.mem_cons_of_mem _ (ih x (hsp ▸ List.mem_cons_of_mem _ hx') c hc)

theorem mem_intercalC (d : Char) (l : List Str) (c : Char) (h : c ∈ intercalC d l) :
    c = d ∨ ∃ x ∈ l, c ∈ x := by
  induction l with
  | nil => cases h
  | cons x rest ih =>
    cases rest with
    | nil => exact Or.inr ⟨x, List.mem_cons_self _ _, h⟩
    | cons y t =>
      rcases List.mem_append.mp h with hx | hdr
      · exact Or.inr ⟨x, List.mem_cons_self _ _, hx⟩
      · rcases List.mem_cons.mp hdr with rfl | hr
        · exact Or.inl rfl
        · rcases ih hr with hd | ⟨z, hz, hcz⟩
          · exact Or.inl hd
          · exact Or.inr ⟨z, List.mem_cons_of_mem _ hz, hcz⟩

theorem resolve_no_dots (l : List Str)
    (h : ∀ x ∈ l, x ≠ toL "." ∧ x ≠ toL "..") :
    ∀ acc, resolveSegs acc l = acc.reverse ++ l := by
  induction l with
  | nil => intro acc; simp [resolveSegs]
  | cons s rest ih =>
    intro acc
    have hs := h s (List.mem_cons_self _ _)
    simp only [resolveSegs]
    rw [if_neg hs.2, if_neg hs.1,
      ih (fun x hx => h x (List.mem_cons_of_mem _ hx)) (s :: acc)]
    simp [List.append_assoc]

theorem midAux_ne_nil (l : List Str) (h : l ≠ []) : midAux l ≠ [] := by
  induction l with
  | nil => exact absurd rfl h
  | cons x rest ih =>
    cases rest with
    | nil => simp [midAux]
    | cons y t =>
      simp only [midAux]
      split
      · exact ih (by simp)
      · simp

theorem midAux_getLast (l : List Str) (h : l ≠ []) :
    (midAux l).getLast? = l.getLast? := by
  induction l with
  | nil => exact absurd rfl h
  | cons x rest ih =>
    cases rest with
    | nil => rfl
    | cons y t =>
      have ihr := ih (by simp)
      simp only [midAux]
      split
      · rw [ihr, List.getLast?_cons_cons]
      · obtain ⟨m, ms, hm⟩ : ∃ m ms, midAux (y :: t) = m :: ms := by
          cases hmm : midAux (y :: t) with
          | nil => exact absurd hmm (midAux_ne_nil (y :: t) (by simp))
          | cons m ms => exact ⟨m, ms, rfl⟩
        rw [hm, List.getLast?_cons_cons, ← hm, ihr, List.getLast?_cons_cons]

theorem joinResolve_abs (s : Str) (h0 : s ≠ [])
    (hdots : ∀ x ∈ splitOnC '/' s, x ≠ toL "." ∧ x ≠ toL "..") :
    joinResolve (splitOnC '/' s) = s := by
  unfold joinResolve
  simp only []
  have hres : resolveSegs [] (splitOnC '/' s) = splitOnC '/' s := by
    rw [resolve_no_dots _ hdots []]
    rfl
  have hlast : ¬((splitOnC '/' s).getLastD [] = toL "." ∨
      (splitOnC '/' s).getLastD [] = toL "..") := by
    have hmem := List.getLastD_mem_cons (splitOnC '/' s) []
    rcases List.mem_cons.mp hmem with he | hm
    · rw [he]
      rintro (h1 | h1) <;> cases h1
    · exact fun hor => hor.elim (hdots _ hm).1 (hdots _ hm).2
  rw [if_neg hlast, hres, intercal_split '/' s, if_neg h0]

theorem joinResolve_rel (s : Str)
    (hdots : ∀ x ∈ splitOnC '/' s, x ≠ toL "." ∧ x ≠ toL "..") :
    joinResolve (midFilter ([] :: splitOnC '/' s)) =
      '/' :: intercalC '/' (midAux (splitOnC '/' s)) := by
  have hne : splitOnC '/' s ≠ [] := splitOnC_ne_nil '/' s
  have hmidne : midAux (splitOnC '/' s) ≠ [] := midAux_ne_nil _ hne
  have hsegsdots : ∀ x ∈ midFilter ([] :: splitOnC '/' s),
      x ≠ toL "." ∧ x ≠ toL ".." := by
    intro x hx
    unfold midFilter at hx
    rcases List.mem_cons.mp hx with rfl | hm
    · exact ⟨by decide, by decide⟩
    · exact hdots x (mem_midAux x _ hm)
  unfold joinResolve
  simp only []
  have hres : resolveSegs [] (midFilter ([] :: splitOnC '/' s)) =
      midFilter ([] :: splitOnC '/' s) := by
    rw [resolve_no_dots _ hsegsdots []]
    rfl
  have hlast : ¬((midFilter ([] :: splitOnC '/' s)).getLastD [] = toL "." ∨
      (midFilter ([] :: splitOnC '/' s)).getLastD [] = toL "..") := by
    have hmem := List.getLastD_mem_cons (midFilter ([] :: splitOnC '/' s)) []
    rcases List.mem_cons.mp hmem with he | hm
    · rw [he]
      rintro (h1 | h1) <;> cases h1
    · exact fun hor => hor.elim (hsegsdots _ hm).1 (hsegsdots _ hm).2
  rw [if_neg hlast, hres]
  obtain ⟨m, ms, hm⟩ : ∃ m ms, midAux (splitOnC '/' s) = m :: ms := by
    cases hmm : midAux (splitOnC '/' s) with
    | nil => exact absurd hmm hmidne
    | cons m ms => exact ⟨m, ms, rfl⟩
  rw [show midFilter ([] :: splitOnC '/' s) = [] :: midAux (splitOnC '/' s) from rfl, hm]
  have hj : intercalC '/' ([] :: m :: ms) = '/' :: intercalC '/' (m :: ms) := rfl
  rw [hj, if_neg (by simp)]

theorem urlsplitD_canon_full (P : Str) (hcl : cleanStr P = true)
    (hstart : startsWithL (toL "/") P = true)
    (hq : ('?' : Char) ∉ P) (hf : ('#' : Char) ∉ P) :
    urlsplitD (toL "https" ++ ':' :: (toL "//" ++ (toL "9animetv.to" ++ P))) [] =
      ⟨toL "https", toL "9animetv.to", P, [], []⟩ := by
  obtain ⟨t, rfl⟩ := startsWith_slash P hstart
  unfold urlsplitD
  rw [stripU_canon, stripU_of_clean _ hcl]
  unfold urlsplitRaw
  rw [splitFirst_colon_https]
  simp only []
  rw [if_pos (by decide : toL "https" ≠ [] ∧ ((toL "https").headD ' ').isAlpha = true ∧
    (toL "https").all schemeChar = true)]
  rw [show lower (toL "https") = toL "https" from rfl]
  rw [if_pos (startsWith_slashslash _), drop_two_slashslash, takeUntil_host, dropUntil_host]
  rw [show takeUntilDelims ('/' :: t) = [] from rfl,
    show dropUntilDelims ('/' :: t) = '/' :: t from rfl]
  rw [splitFirst_none_of_not_mem '#' _ hf]
  simp only []
  rw [splitFirst_none_of_not_mem '?' _ hq]
  simp

/-- C4 counterexample: with a query string in the href, the recorded `id`
(`href.split('/')[-1]`) carries the query suffix and differs from the
final path segment of the record's url. -/
theorem c4_counterexample :
    (extractAnimeInfo elemQueryHref).url = some (toL "https://9animetv.to/watch/abc?p=2") ∧
      (extractAnimeInfo elemQueryHref).id = some (toL "abc?p=2") ∧
      lastSegOf ((urlsplitD (toL "https://9animetv.to/watch/abc?p=2") []).path) = toL "abc" ∧
      (extractAnimeInfo elemQueryHref).id ≠
        some (lastSegOf ((urlsplitD (toL "https://9animetv.to/watch/abc?p=2") []).path)) := by
  decide

/-- C4 (amended): the `id` is the final `'/'`-separated segment of the raw
href (including any query or fragment suffix); for a relative href free of
tab/CR/LF, `:` and `;`, not beginning with `//`, with no query string, no
fragment and no `.`/`..` segments, that value does equal the final path
segment of the record's url, trailing slashes included.  (The `;` and `:`
exclusions keep the statement inside the fragment where this embedding of
`urljoin` — which has no `;parameters` component — matches CPython's.) -/
theorem c4_id_is_last_path_segment (el : ElementM) (a : Anchor) (href : Str)
    (ha : el.linkAnchor = some a) (hh : a.href = some href) (h0 : href ≠ [])
    (hw : substrOf (toL "/watch/") href = true) (hcl : cleanStr href = true)
    (hc : (':' : Char) ∉ href) (hss : startsWithL (toL "//") href = false)
    (hq : ('?' : Char) ∉ href) (hf : ('#' : Char) ∉ href)
    (_hsemi : (';' : Char) ∉ href)
    (hdots : ∀ seg ∈ splitOnC '/' href, seg ≠ toL "." ∧ seg ≠ toL "..") :
    ∃ u, (extractAnimeInfo el).url = some u ∧
      (extractAnimeInfo el).id = some (lastSegOf href) ∧
      lastSegOf ((urlsplitD u []).path) = lastSegOf href := by
  obtain ⟨hu, hid⟩ := extract_link_eq el a href ha hh h0 hw
  refine ⟨urljoinB href, hu, hid, ?_⟩
  have hs : urlsplitD href (toL "https") = ⟨toL "https", [], href, [], []⟩ := by
    unfold urlsplitD
    rw [stripU_of_clean _ hcl]
    unfold urlsplitRaw
    rw [splitFirst_none_of_not_mem ':' _ hc]
    simp only []
    rw [hss]
    simp only [Bool.false_eq_true, if_false]
    rw [splitFirst_none_of_not_mem '#' _ hf]
    simp only []
    rw [splitFirst_none_of_not_mem '?' _ hq]
  unfold urljoinB
  rw [if_neg h0, hs]
  simp only []
  rw [if_neg (by simp), if_neg (by simp), if_neg h0]
  by_cases habs : startsWithL (toL "/") href = true
  · rw [if_pos habs, joinResolve_abs href h0 hdots, unsplit_canon]
    have hfix : fixPath href = href := by
      unfold fixPath
      rw [if_neg (fun hand => hand.2 habs)]
    rw [hfix, show optPre '?' [] = ([] : Str) from rfl,
      show optPre '#' [] = ([] : Str) from rfl, List.append_nil, List.append_nil,
      urlsplitD_canon_full href hcl habs hq hf]
  · rw [if_neg habs, joinResolve_rel href hdots, unsplit_canon]
    have hstartPr : startsWithL (toL "/")
        ('/' :: intercalC '/' (midAux (splitOnC '/' href))) = true := rfl
    have hfix : fixPath ('/' :: intercalC '/' (midAux (splitOnC '/' href))) =
        '/' :: intercalC '/' (midAux (splitOnC '/' href)) := by
      unfold fixPath
      rw [if_neg (fun hand => hand.2 hstartPr)]
    have hcharsub : ∀ c ∈ intercalC '/' (midAux (splitOnC '/' href)),
        c = '/' ∨ c ∈ href := by
      intro c hcmem
      rcases mem_intercalC '/' _ c hcmem with rfl | ⟨x, hx, hcx⟩
      · exact Or.inl rfl
      · exact Or.inr (splitOnC_chars '/' href x (mem_midAux x _ hx) c hcx)
    have hqPr : ('?' : Char) ∉ '/' :: intercalC '/' (midAux (splitOnC '/' href)) := by
      intro hmem
      rcases List.mem_cons.mp hmem with he | hmem'
      · cases he
      · rcases hcharsub '?' hmem' with he | hin
        · cases he
        · exact hq hin
    have hfPr : ('#' : Char) ∉ '/' :: intercalC '/' (midAux (splitOnC '/' href)) := by
      intro hmem
      rcases List.mem_cons.mp hmem with he | hmem'
      · cases he
      · rcases hcharsub '#' hmem' with he | hin
        · cases he
        · exact hf hin
    have hclPr : cleanStr ('/' :: intercalC '/' (midAux (splitOnC '/' href))) = true := by
      rw [cleanStr_cons]
      rw [intercalC_clean '/' rfl _ (fun x hx =>
        splitOnC_clean '/' href hcl x (mem_midAux x _ hx))]
      rfl
    rw [hfix, show optPre '?' [] = ([] : Str) from rfl,
      show optPre '#' [] = ([] : Str) from rfl, List.append_nil, List.append_nil,
      urlsplitD_canon_full _ hclPr hstartPr hqPr hfPr]
    show lastSegOf ('/' :: intercalC '/' (midAux (splitOnC '/' href))) = lastSegOf href
    unfold lastSegOf
    rw [splitOnC_cons_delim,
      split_intercal '/' (midAux (splitOnC '/' href)) (midAux_ne_nil _ (splitOnC_ne_nil _ _))
        (fun x hx => mem_splitOnC_no_delim '/' href x (mem_midAux x _ hx)),
      List.getLastD_cons, List.getLastD_eq_getLast?, List.getLastD_eq_getLast?,
      midAux_getLast _ (splitOnC_ne_nil _ _)]

/-- Witness for C4 (amended) at a concrete href with a trailing slash. -/
theorem c4_id_is_last_path_segment_witness :
    ∃ u, (extractAnimeInfo elemSlashHref).url = some u ∧
      (extractAnimeInfo elemSlashHref).id = some (lastSegOf (toL "/watch/one-piece-100/")) ∧
      lastSegOf ((urlsplitD u []).path) = lastSegOf (toL "/watch/one-piece-100/") :=
  c4_id_is_last_path_segment elemSlashHref { href := some (toL "/watch/one-piece-100/") }
    (toL "/watch/one-piece-100/") rfl rfl (by decide) (by decide) (by decide) (by decide)
    (by decide) (by decide) (by decide) (by decide) (by decide)

end Scrape
